import Mathlib

/-!
Verification of the otf2psf glyph bitmap engine and font assembly pipeline.

This file shallowly embeds the Rust sources (`src/glyph.rs`, `src/psf2_writer.rs`,
`src/unicode_table.rs`, `src/ttf_parser.rs`, `src/errors.rs`,
`src/glyph_image_owned.rs`) into Lean and proves or refutes the frozen claims
about them.

Modelling conventions:
* Machine integers (`u32`, `usize`, `u16`, `u8`) are modelled as `Nat`.  The only
  place the bit width of a field is observable is little-endian serialization,
  which is modelled by `le32` with explicit `% 256` arithmetic.
* `Vec<u8>` buffers are `List Nat` (each element a byte value).
* Fallible Rust functions returning `Result<T, E>` become `Except E T`.
* A Rust panic (e.g. `chunks_exact(0)`, `unwrap()`, an explicit `panic!`) is not
  a returned value; functions that can panic are wrapped in `Option`, with
  `none` modelling the panic.
* Floating point appears in the source only in `(x as f64 / 8.0).ceil()` applied
  to `u32` values, which is exact in `f64` and equals `ceilDiv8` below, and in
  rasterizer coverage values, which only select which pixels are set and are
  abstracted as inputs.
-/

set_option linter.unusedVariables false

/-- ceil(w/8), the byte length of one `w`-pixel row in the byte-aligned layout.
Models the Rust `(w as f64 / 8.0).ceil() as usize`, exact for `u32` inputs. -/
def ceilDiv8 (w : Nat) : Nat := (w + 7) / 8

/-- MSB-first bit `i` (0 ≤ i < 8) of byte `b`, as `view_bits::<Msb0>` exposes it. -/
def byteBit (b : Nat) (i : Nat) : Bool := Nat.testBit b (7 - i)

/-- `Glyph` from src/glyph.rs: a psf2-style glyph bitmap; mono-color, one bit
per pixel, byte-padded rows.  The `grapheme : String` field is modelled as the
list of its Unicode scalar values. -/
structure Glyph where
  height : Nat
  width : Nat
  data : List Nat
  grapheme : List Nat
deriving DecidableEq, Repr

/-- `GlyphImageFormat` from the ab_glyph crate (the variants matched by the source). -/
inductive GlyphImageFormat where
  | Png
  | BitmapMono
  | BitmapMonoPacked
  | BitmapGray2
  | BitmapGray2Packed
  | BitmapGray4
  | BitmapGray4Packed
  | BitmapGray8
  | BitmapPremulBgra32
deriving DecidableEq, Repr

/-- `GlyphError` from src/errors.rs. -/
inductive GlyphError where
  | WrongDimensions (height width expected_height expected_width : Nat)
  | WrongLength (length expected_length : Nat)
  | PadTooSmall (height width pad_height pad_width : Nat)
  | GlyphImgFmtUnsupported (format : GlyphImageFormat)
  | EmptyString
deriving DecidableEq, Repr

/-- `GlyphSetError` from src/errors.rs. -/
inductive GlyphSetError where
  | InconsistentDimensions (height width expected_height expected_width : Nat)
  | InconsistentLengths (length expected_length : Nat)
  | EmptyString
deriving DecidableEq, Repr

/-- `UnicodeTableError` from src/errors.rs.  The payloads of `IoError`,
`ParserError` and `ParseIntError` live in external crates and are dropped. -/
inductive UnicodeTableError where
  | IoError
  | ParserError
  | InvalidCodepoint (codepoint : Nat)
  | ParseIntError
deriving DecidableEq, Repr

/-- `Glyph::add` (src/glyph.rs lines 19-46): overlays two bitmaps with a
byte-wise bitwise OR and concatenates the graphemes, after checking that
dimensions and data lengths agree. -/
def Glyph.add (a b : Glyph) : Except GlyphError Glyph :=
  if a.height ≠ b.height ∨ a.width ≠ b.width then
    .error (.WrongDimensions a.height a.width b.height b.width)
  else if a.data.length ≠ b.data.length then
    .error (.WrongLength a.data.length b.data.length)
  else
    .ok ⟨a.height, a.width, List.zipWith Nat.lor a.data b.data, a.grapheme ++ b.grapheme⟩

/-- Fuel-driven worker for `chunksExact`; the fuel only forces structural
recursion and never runs out when it starts at `l.length`. -/
def chunksExactAux {α : Type} : Nat → Nat → List α → List (List α)
  | 0, _, _ => []
  | fuel + 1, k, l =>
    if 0 < k ∧ k ≤ l.length then l.take k :: chunksExactAux fuel k (l.drop k) else []

/-- Rust `slice::chunks_exact(k)`: the list of consecutive `k`-element chunks,
dropping any final chunk shorter than `k`.  The Rust method panics on `k = 0`;
callers model that case separately. -/
def chunksExact {α : Type} (k : Nat) (l : List α) : List (List α) :=
  chunksExactAux l.length k l

theorem chunksExactAux_nil (fuel k : Nat) : chunksExactAux fuel k ([] : List Nat) = [] := by
  cases fuel with
  | zero => rfl
  | succ n =>
    rw [chunksExactAux]
    exact if_neg (by intro hc; simp only [List.length_nil, Nat.le_zero] at hc; omega)

theorem chunksExactAux_congr (k : Nat) :
    ∀ (fuel fuel' : Nat) (l : List Nat), l.length ≤ fuel → l.length ≤ fuel' →
      chunksExactAux fuel k l = chunksExactAux fuel' k l := by
  intro fuel
  induction fuel with
  | zero =>
    intro fuel' l h h'
    have hl : l = [] := List.eq_nil_of_length_eq_zero (Nat.le_zero.1 h)
    subst hl
    rw [chunksExactAux_nil, chunksExactAux_nil]
  | succ n ih =>
    intro fuel' l h h'
    cases fuel' with
    | zero =>
      have hl : l = [] := List.eq_nil_of_length_eq_zero (Nat.le_zero.1 h')
      subst hl
      rw [chunksExactAux_nil, chunksExactAux_nil]
    | succ m =>
      rw [chunksExactAux, chunksExactAux]
      by_cases hc : 0 < k ∧ k ≤ l.length
      · rw [if_pos hc, if_pos hc]
        have hd : (l.drop k).length ≤ n := by
          simp only [List.length_drop]
          omega
        have hd' : (l.drop k).length ≤ m := by
          simp only [List.length_drop]
          omega
        rw [ih m (l.drop k) hd hd']
      · rw [if_neg hc, if_neg hc]

theorem chunksExact_cons (k : Nat) (l : List Nat) (hk : 0 < k) (hl : k ≤ l.length) :
    chunksExact k l = l.take k :: chunksExact k (l.drop k) := by
  rcases l with _ | ⟨a, t⟩
  · simp only [List.length_nil, Nat.le_zero] at hl
    omega
  · show chunksExactAux (a :: t).length k (a :: t) = _
    have hfuel : (a :: t).length = t.length + 1 := rfl
    rw [hfuel, chunksExactAux, if_pos ⟨hk, hl⟩]
    have h2 : chunksExactAux t.length k ((a :: t).drop k)
        = chunksExactAux ((a :: t).drop k).length k ((a :: t).drop k) :=
      chunksExactAux_congr k t.length ((a :: t).drop k).length ((a :: t).drop k)
        (by simp only [List.length_drop, List.length_cons]; omega) (Nat.le_refl _)
    rw [h2]
    rfl

theorem chunksExact_eq_nil (k : Nat) (l : List Nat) (h : ¬(0 < k ∧ k ≤ l.length)) :
    chunksExact k l = [] := by
  rcases l with _ | ⟨a, t⟩
  · exact chunksExactAux_nil _ k
  · show chunksExactAux (a :: t).length k (a :: t) = _
    have hfuel : (a :: t).length = t.length + 1 := rfl
    rw [hfuel, chunksExactAux]
    exact if_neg h

/-- `Glyph::pad` (src/glyph.rs lines 51-68): pads a glyph to `newH × newW`,
adding zero bytes to the right of each row and zero rows at the bottom.
Returns `none` when the Rust code panics: for a zero-width glyph whose row
length must grow, `self.data.chunks_exact(0)` aborts the process. -/
def Glyph.pad (g : Glyph) (newH newW : Nat) : Option (Except GlyphError Glyph) :=
  if g.height > newH ∨ g.width > newW then
    some (.error (.PadTooSmall g.height g.width newH newW))
  else
    let rl := ceilDiv8 g.width
    let prl := ceilDiv8 newW
    if rl < prl then
      if rl = 0 then none
      else
        some (.ok ⟨newH, newW,
          (List.flatten ((chunksExact rl g.data).map (fun ch => ch ++ List.replicate (prl - rl) 0)))
            ++ List.replicate ((newH - g.height) * prl) 0,
          g.grapheme⟩)
    else
      some (.ok ⟨newH, newW, g.data ++ List.replicate ((newH - g.height) * prl) 0, g.grapheme⟩)

/-- Bit of glyph `g` at pixel row `r`, column `c`, in the byte-aligned
MSB-first layout the `Glyph` docs describe. -/
def Glyph.bitAt (g : Glyph) (r c : Nat) : Bool :=
  byteBit (g.data.getD (r * ceilDiv8 g.width + c / 8) 0) (c % 8)

/-- Wellformedness of a `GlyphBitmap` per the data model: the length invariant
`data.length = height * ceil(width/8)` and zero row-padding bits. -/
def Glyph.WF (g : Glyph) : Prop :=
  g.data.length = g.height * ceilDiv8 g.width ∧
  ∀ r < g.height, ∀ c < 8 * ceilDiv8 g.width, g.width ≤ c → g.bitAt r c = false

instance (g : Glyph) : Decidable g.WF := by
  unfold Glyph.WF
  infer_instance

instance {ε α : Type} [DecidableEq ε] [DecidableEq α] : DecidableEq (Except ε α) := fun x y =>
  match x, y with
  | .ok a, .ok b =>
      if h : a = b then isTrue (by rw [h]) else isFalse (by intro hc; cases hc; exact h rfl)
  | .error a, .error b =>
      if h : a = b then isTrue (by rw [h]) else isFalse (by intro hc; cases hc; exact h rfl)
  | .ok _, .error _ => isFalse (by intro hc; cases hc)
  | .error _, .ok _ => isFalse (by intro hc; cases hc)

/-- C2: `add` fails with `WrongDimensions` (carrying both operands' dimensions)
iff heights or widths differ; otherwise fails with `WrongLength` (carrying both
lengths) iff the data lengths differ; otherwise returns the byte-wise OR with
the operands' dimensions and `a`'s grapheme followed by `b`'s. -/
theorem add_matches_claim (a b : Glyph) :
    (Glyph.add a b = .error (.WrongDimensions a.height a.width b.height b.width)
        ↔ (a.height ≠ b.height ∨ a.width ≠ b.width))
    ∧ (a.height = b.height → a.width = b.width →
        (Glyph.add a b = .error (.WrongLength a.data.length b.data.length)
          ↔ a.data.length ≠ b.data.length))
    ∧ (a.height = b.height → a.width = b.width → a.data.length = b.data.length →
        Glyph.add a b =
          .ok ⟨a.height, a.width, List.zipWith Nat.lor a.data b.data, a.grapheme ++ b.grapheme⟩) := by
  by_cases h1 : a.height = b.height <;> by_cases h2 : a.width = b.width <;>
    by_cases h3 : a.data.length = b.data.length <;>
    simp [Glyph.add, h1, h2, h3]

/-- Witness for C2 at concrete glyphs with matching dimensions and lengths. -/
theorem add_matches_claim_witness :
    Glyph.add ⟨1, 2, [0xC0], [65]⟩ ⟨1, 2, [0x40], [66]⟩ =
      .ok ⟨1, 2, List.zipWith Nat.lor [0xC0] [0x40], [65] ++ [66]⟩ :=
  (add_matches_claim ⟨1, 2, [0xC0], [65]⟩ ⟨1, 2, [0x40], [66]⟩).2.2 rfl rfl rfl

/-- C10: padding a glyph to its current dimensions succeeds and is the identity. -/
theorem pad_identity (g : Glyph) (hlen : g.data.length = g.height * ceilDiv8 g.width) :
    Glyph.pad g g.height g.width = some (.ok g) := by
  simp [Glyph.pad]

/-- Witness for C10 at a concrete wellformed glyph. -/
theorem pad_identity_witness :
    Glyph.pad ⟨1, 1, [128], [65]⟩ 1 1 = some (.ok ⟨1, 1, [128], [65]⟩) :=
  pad_identity ⟨1, 1, [128], [65]⟩ (by decide)

/-- C3 counterexample: a wellformed zero-width glyph padded to a positive width
makes the source call `chunks_exact(0)`, which panics (modelled as `none`)
instead of succeeding as the claim states. -/
theorem pad_zero_width_panics :
    Glyph.WF ⟨2, 0, [], []⟩ ∧ Glyph.pad ⟨2, 0, [], []⟩ 2 8 = none := by
  constructor
  · decide
  · decide

/-- `Psf2Header` from src/psf2_writer.rs. -/
structure Psf2Header where
  unicode_table_exists : Bool
  glyph_count : Nat
  glyph_size : Nat
  glyph_height : Nat
  glyph_width : Nat
deriving DecidableEq, Repr

/-- `Psf2GlyphSet` from src/psf2_writer.rs. -/
structure Psf2GlyphSet where
  glyphs : List Glyph
  height : Nat
  width : Nat
  length : Nat
deriving DecidableEq, Repr

/-- `UnicodeTable` from src/unicode_table.rs: each entry is an equivalence set
of graphemes, each grapheme a list of Unicode scalar values. -/
structure UnicodeTable where
  data : List (List (List Nat))
deriving DecidableEq, Repr

/-- `Psf2Font` from src/psf2_writer.rs. -/
structure Psf2Font where
  header : Psf2Header
  glyphs : Psf2GlyphSet
  unicode_table : Option UnicodeTable
deriving DecidableEq, Repr

/-- The validation loop inside `Psf2GlyphSet::from_vec_of_glyphs_strict`
(src/psf2_writer.rs lines 129-142): first mismatch against the baseline wins,
dimensions are checked before lengths. -/
def checkRest : List Glyph → Nat → Nat → Nat → Option GlyphSetError
  | [], _, _, _ => none
  | g :: gs, h, w, l =>
    if g.height ≠ h ∨ g.width ≠ w then
      some (.InconsistentDimensions g.height g.width h w)
    else if g.data.length ≠ l then
      some (.InconsistentLengths g.data.length l)
    else checkRest gs h w l

/-- `Psf2GlyphSet::from_vec_of_glyphs_strict` (src/psf2_writer.rs lines 111-149). -/
def Psf2GlyphSet.from_vec_of_glyphs_strict (glyphs : List Glyph) : Except GlyphSetError Psf2GlyphSet :=
  match glyphs with
  | [] => .ok ⟨[], 0, 0, 0⟩
  | f :: rest =>
    match checkRest rest f.height f.width f.data.length with
    | some e => .error e
    | none => .ok ⟨f :: rest, f.height, f.width, f.data.length⟩

theorem checkRest_none_iff (rest : List Glyph) (h w l : Nat) :
    checkRest rest h w l = none ↔
      ∀ g ∈ rest, g.height = h ∧ g.width = w ∧ g.data.length = l := by
  induction rest with
  | nil => simp [checkRest]
  | cons g gs ih =>
    by_cases h1 : g.height = h <;> by_cases h2 : g.width = w <;>
      by_cases h3 : g.data.length = l <;>
      simp [checkRest, h1, h2, h3, ih, List.forall_mem_cons]

theorem checkRest_some (rest : List Glyph) (h w l : Nat) (e : GlyphSetError)
    (he : checkRest rest h w l = some e) :
    ∃ g ∈ rest,
      ((g.height ≠ h ∨ g.width ≠ w) ∧ e = .InconsistentDimensions g.height g.width h w)
      ∨ (g.height = h ∧ g.width = w ∧ g.data.length ≠ l
          ∧ e = .InconsistentLengths g.data.length l) := by
  induction rest with
  | nil => simp [checkRest] at he
  | cons g gs ih =>
    by_cases h1 : g.height = h ∧ g.width = w
    · by_cases h3 : g.data.length = l
      · have he' : checkRest gs h w l = some e := by
          simpa [checkRest, h1.1, h1.2, h3] using he
        rcases ih he' with ⟨g', hg', hc⟩
        exact ⟨g', List.mem_cons_of_mem _ hg', hc⟩
      · have hee : e = .InconsistentLengths g.data.length l := by
          have := he
          simp [checkRest, h1.1, h1.2, h3] at this
          exact this.symm
        exact ⟨g, List.mem_cons_self _ _, Or.inr ⟨h1.1, h1.2, h3, hee⟩⟩
    · have hcond : g.height ≠ h ∨ g.width ≠ w := by tauto
      have hee : e = .InconsistentDimensions g.height g.width h w := by
        have hu : checkRest (g :: gs) h w l
            = some (.InconsistentDimensions g.height g.width h w) := by
          simp [checkRest, if_pos hcond]
        rw [hu] at he
        exact (Option.some.inj he).symm
      exact ⟨g, List.mem_cons_self _ _, Or.inl ⟨hcond, hee⟩⟩

/-- C6, stated in the claim's terms over `from_vec_of_glyphs_strict`. -/
def StrictSpec (glyphs : List Glyph) : Prop :=
  (glyphs = [] → Psf2GlyphSet.from_vec_of_glyphs_strict glyphs = .ok ⟨[], 0, 0, 0⟩)
  ∧ ∀ f rest, glyphs = f :: rest →
      ((∀ g ∈ rest, g.height = f.height ∧ g.width = f.width ∧ g.data.length = f.data.length) →
        Psf2GlyphSet.from_vec_of_glyphs_strict glyphs =
          .ok ⟨f :: rest, f.height, f.width, f.data.length⟩)
      ∧ ((∃ g ∈ rest, ¬(g.height = f.height ∧ g.width = f.width ∧ g.data.length = f.data.length)) →
        ∃ e, Psf2GlyphSet.from_vec_of_glyphs_strict glyphs = .error e
          ∧ ∃ g ∈ rest,
              ((g.height ≠ f.height ∨ g.width ≠ f.width)
                ∧ e = .InconsistentDimensions g.height g.width f.height f.width)
              ∨ (g.height = f.height ∧ g.width = f.width ∧ g.data.length ≠ f.data.length
                ∧ e = .InconsistentLengths g.data.length f.data.length))

/-- C6: strict assembly takes the first glyph as baseline; it fails with
`InconsistentDimensions` or `InconsistentLengths` (naming offending and
expected values) iff some later glyph deviates, succeeds when all match, and
accepts the empty list with all-zero dimensions. -/
theorem strict_assembly_matches_claim (glyphs : List Glyph) : StrictSpec glyphs := by
  constructor
  · intro h
    subst h
    rfl
  · intro f rest heq
    subst heq
    constructor
    · intro hall
      have hnone : checkRest rest f.height f.width f.data.length = none :=
        (checkRest_none_iff rest f.height f.width f.data.length).2 hall
      simp [Psf2GlyphSet.from_vec_of_glyphs_strict, hnone]
    · intro ⟨g, hg, hmis⟩
      rcases hsome : checkRest rest f.height f.width f.data.length with _ | e
      · exact absurd ((checkRest_none_iff rest f.height f.width f.data.length).1 hsome g hg) hmis
      · refine ⟨e, ?_, ?_⟩
        · simp [Psf2GlyphSet.from_vec_of_glyphs_strict, hsome]
        · exact checkRest_some rest f.height f.width f.data.length e hsome

/-- Witness for C6 at a concrete two-glyph list with matching dimensions. -/
theorem strict_assembly_matches_claim_witness :
    StrictSpec [⟨1, 1, [128], [65]⟩, ⟨1, 1, [64], [66]⟩] :=
  strict_assembly_matches_claim [⟨1, 1, [128], [65]⟩, ⟨1, 1, [64], [66]⟩]

theorem getD_append_left (l l' : List Nat) (i : Nat) (h : i < l.length) :
    (l ++ l').getD i 0 = l.getD i 0 := by
  induction l generalizing i with
  | nil => simp at h
  | cons a t ih =>
    cases i with
    | zero => rfl
    | succ n => exact ih n (by simpa using h)

theorem getD_append_right (l l' : List Nat) (i : Nat) (h : l.length ≤ i) :
    (l ++ l').getD i 0 = l'.getD (i - l.length) 0 := by
  induction l generalizing i with
  | nil => simp
  | cons a t ih =>
    cases i with
    | zero => simp at h
    | succ n =>
      have := ih n (by simpa using h)
      simpa [Nat.succ_sub_succ] using this

theorem getD_replicate_zero (n i : Nat) : (List.replicate n (0 : Nat)).getD i 0 = 0 := by
  induction n generalizing i with
  | zero => rfl
  | succ m ih =>
    cases i with
    | zero => rfl
    | succ j => exact ih j

theorem getD_ge (l : List Nat) (i : Nat) (h : l.length ≤ i) : l.getD i 0 = 0 := by
  induction l generalizing i with
  | nil => rfl
  | cons a t ih =>
    cases i with
    | zero => simp at h
    | succ n => exact ih n (by simpa using h)

theorem getD_take (l : List Nat) (k i : Nat) (h : i < k) :
    (l.take k).getD i 0 = l.getD i 0 := by
  induction l generalizing k i with
  | nil => simp
  | cons a t ih =>
    cases k with
    | zero => omega
    | succ m =>
      cases i with
      | zero => rfl
      | succ n => exact ih m n (by omega)

theorem getD_drop (l : List Nat) (k i : Nat) : (l.drop k).getD i 0 = l.getD (k + i) 0 := by
  induction l generalizing k with
  | nil => simp
  | cons a t ih =>
    cases k with
    | zero => simp
    | succ m =>
      rw [Nat.succ_add]
      exact ih m

/-- Core lemma for `Glyph::pad`'s row-restriding branch: re-chunking
`h`-row data with row stride `rl` and right-padding every chunk with
`prl - rl` zero bytes yields an `h * prl` buffer whose byte at position
`r * prl + j` is the original byte `r * rl + j` when `j < rl` and `0`
otherwise. -/
theorem padRows (rl prl : Nat) (hrl : 0 < rl) (hle : rl ≤ prl) :
    ∀ (h : Nat) (data : List Nat), data.length = h * rl →
      (List.flatten ((chunksExact rl data).map
          (fun ch => ch ++ List.replicate (prl - rl) 0))).length = h * prl
      ∧ ∀ r j, j < prl →
          (List.flatten ((chunksExact rl data).map
              (fun ch => ch ++ List.replicate (prl - rl) 0))).getD (r * prl + j) 0
            = if j < rl then data.getD (r * rl + j) 0 else 0 := by
  intro h
  induction h with
  | zero =>
    intro data hd
    have hdn : data = [] := List.eq_nil_of_length_eq_zero (by simpa using hd)
    subst hdn
    have hce : chunksExact rl [] = [] :=
      chunksExact_eq_nil rl [] (by simp only [List.length_nil]; omega)
    rw [hce]
    refine ⟨by simp, ?_⟩
    intro r j hj
    show (0 : Nat) = _
    split <;> rfl
  | succ m ih =>
    intro data hd
    have hlen : rl ≤ data.length := by
      rw [hd, Nat.succ_mul]
      omega
    have hsplit := chunksExact_cons rl data hrl hlen
    have hdroplen : (data.drop rl).length = m * rl := by
      simp only [List.length_drop, hd, Nat.succ_mul]
      omega
    obtain ⟨ihlen, ihget⟩ := ih (data.drop rl) hdroplen
    have htakelen : (data.take rl).length = rl := by
      simp only [List.length_take]
      omega
    have hrowlen : ((data.take rl) ++ List.replicate (prl - rl) (0 : Nat)).length = prl := by
      simp only [List.length_append, List.length_replicate, htakelen]
      omega
    rw [hsplit]
    simp only [List.map_cons, List.flatten_cons]
    constructor
    · simp only [List.length_append, hrowlen, ihlen, Nat.succ_mul]
      omega
    · intro r j hj
      cases r with
      | zero =>
        have hidx : 0 * prl + j = j := by omega
        rw [hidx]
        have hlt : j < ((data.take rl) ++ List.replicate (prl - rl) (0 : Nat)).length := by
          rw [hrowlen]; exact hj
        rw [getD_append_left _ _ j hlt]
        by_cases hjr : j < rl
        · rw [if_pos hjr]
          have hlt2 : j < (data.take rl).length := by rw [htakelen]; exact hjr
          rw [getD_append_left _ _ j hlt2, getD_take data rl j hjr]
          have : 0 * rl + j = j := by omega
          rw [this]
        · rw [if_neg hjr]
          have hge : (data.take rl).length ≤ j := by rw [htakelen]; omega
          rw [getD_append_right _ _ j hge, getD_replicate_zero]
      | succ n =>
        have hge : ((data.take rl) ++ List.replicate (prl - rl) (0 : Nat)).length
            ≤ (n + 1) * prl + j := by
          rw [hrowlen, Nat.succ_mul]
          omega
        rw [getD_append_right _ _ _ hge]
        have hidx : (n + 1) * prl + j - ((data.take rl) ++ List.replicate (prl - rl) (0 : Nat)).length
            = n * prl + j := by
          rw [hrowlen, Nat.succ_mul]
          omega
        rw [hidx, ihget n j hj]
        by_cases hjr : j < rl
        · rw [if_pos hjr, if_pos hjr, getD_drop]
          have : rl + (n * rl + j) = (n + 1) * rl + j := by rw [Nat.succ_mul]; omega
          rw [this]
        · rw [if_neg hjr, if_neg hjr]

theorem byteBit_zero (i : Nat) : byteBit 0 i = false := by
  simp [byteBit]

theorem le_eight_ceilDiv8 (n : Nat) : n ≤ 8 * ceilDiv8 n := by
  unfold ceilDiv8
  omega

theorem ceilDiv8_mono {m n : Nat} (h : m ≤ n) : ceilDiv8 m ≤ ceilDiv8 n := by
  unfold ceilDiv8
  omega

/-- Master lemma for the success path of `Glyph::pad`: under the length
invariant, with dimensions that fit and without the zero-width repacking
panic, `pad` produces a buffer of the padded size whose byte at row `r`,
column-byte `j` is the original byte inside the old bounds and `0` outside. -/
theorem pad_ok_master (g : Glyph) (newH newW : Nat)
    (hlen : g.data.length = g.height * ceilDiv8 g.width)
    (hH : g.height ≤ newH) (hW : g.width ≤ newW)
    (hz : g.width = 0 → newW = 0) :
    ∃ out : List Nat,
      Glyph.pad g newH newW = some (.ok ⟨newH, newW, out, g.grapheme⟩)
      ∧ out.length = newH * ceilDiv8 newW
      ∧ ∀ r j, j < ceilDiv8 newW →
          out.getD (r * ceilDiv8 newW + j) 0 =
            if r < g.height ∧ j < ceilDiv8 g.width
            then g.data.getD (r * ceilDiv8 g.width + j) 0 else 0 := by
  have hrlle : ceilDiv8 g.width ≤ ceilDiv8 newW := ceilDiv8_mono hW
  by_cases hlt : ceilDiv8 g.width < ceilDiv8 newW
  · have hrl0 : ceilDiv8 g.width ≠ 0 := by
      intro h0
      have hw0 : g.width = 0 := by unfold ceilDiv8 at h0; omega
      have := hz hw0
      subst this
      unfold ceilDiv8 at hlt h0
      omega
    have hrlpos : 0 < ceilDiv8 g.width := Nat.pos_of_ne_zero hrl0
    obtain ⟨plen, pget⟩ :=
      padRows (ceilDiv8 g.width) (ceilDiv8 newW) hrlpos hrlle g.height g.data hlen
    refine ⟨(List.flatten ((chunksExact (ceilDiv8 g.width) g.data).map
        (fun ch => ch ++ List.replicate (ceilDiv8 newW - ceilDiv8 g.width) 0)))
        ++ List.replicate ((newH - g.height) * ceilDiv8 newW) 0, ?_, ?_, ?_⟩
    · simp only [Glyph.pad]
      rw [if_neg (by omega), if_pos hlt, if_neg hrl0]
    · simp only [List.length_append, List.length_replicate, plen]
      have : g.height * ceilDiv8 newW ≤ newH * ceilDiv8 newW :=
        Nat.mul_le_mul_right _ hH
      calc g.height * ceilDiv8 newW + (newH - g.height) * ceilDiv8 newW
          = (g.height + (newH - g.height)) * ceilDiv8 newW := by rw [Nat.add_mul]
        _ = newH * ceilDiv8 newW := by congr 1; omega
    · intro r j hj
      by_cases hr : r < g.height
      · have hidx : r * ceilDiv8 newW + j < g.height * ceilDiv8 newW := by
          have h1 : r * ceilDiv8 newW + j < (r + 1) * ceilDiv8 newW := by
            rw [Nat.succ_mul]; omega
          have h2 : (r + 1) * ceilDiv8 newW ≤ g.height * ceilDiv8 newW :=
            Nat.mul_le_mul_right _ hr
          omega
        rw [getD_append_left _ _ _ (by rw [plen]; exact hidx)]
        rw [pget r j hj]
        simp [hr]
      · have hidx : g.height * ceilDiv8 newW ≤ r * ceilDiv8 newW + j := by
          have : g.height * ceilDiv8 newW ≤ r * ceilDiv8 newW :=
            Nat.mul_le_mul_right _ (by omega)
          omega
        rw [getD_append_right _ _ _ (by rw [plen]; exact hidx)]
        rw [getD_replicate_zero]
        simp [hr]
  · have heq : ceilDiv8 g.width = ceilDiv8 newW := by omega
    refine ⟨g.data ++ List.replicate ((newH - g.height) * ceilDiv8 newW) 0, ?_, ?_, ?_⟩
    · simp only [Glyph.pad]
      rw [if_neg (by omega), if_neg hlt]
    · simp only [List.length_append, List.length_replicate, hlen, heq]
      calc g.height * ceilDiv8 newW + (newH - g.height) * ceilDiv8 newW
          = (g.height + (newH - g.height)) * ceilDiv8 newW := by rw [Nat.add_mul]
        _ = newH * ceilDiv8 newW := by congr 1; omega
    · intro r j hj
      by_cases hr : r < g.height
      · have hidx : r * ceilDiv8 newW + j < g.height * ceilDiv8 newW := by
          have h1 : r * ceilDiv8 newW + j < (r + 1) * ceilDiv8 newW := by
            rw [Nat.succ_mul]; omega
          have h2 : (r + 1) * ceilDiv8 newW ≤ g.height * ceilDiv8 newW :=
            Nat.mul_le_mul_right _ hr
          omega
        rw [getD_append_left _ _ _ (by rw [hlen, heq]; exact hidx)]
        rw [heq]
        simp [hr, hj]
      · have hidx : g.height * ceilDiv8 newW ≤ r * ceilDiv8 newW + j := by
          have : g.height * ceilDiv8 newW ≤ r * ceilDiv8 newW :=
            Nat.mul_le_mul_right _ (by omega)
          omega
        rw [getD_append_right _ _ _ (by rw [hlen, heq]; exact hidx)]
        rw [getD_replicate_zero]
        simp [hr]

/-- C3, as amended, stated in the claim's terms over `Glyph.pad`. -/
def PadSpec (g : Glyph) (newH newW : Nat) : Prop :=
  ∃ g' : Glyph,
    Glyph.pad g newH newW = some (.ok g')
    ∧ g'.height = newH ∧ g'.width = newW
    ∧ g'.data.length = newH * ceilDiv8 newW
    ∧ (∀ r < g.height, ∀ c < g.width, g'.bitAt r c = g.bitAt r c)
    ∧ (∀ r < newH, ∀ c < newW, (g.height ≤ r ∨ g.width ≤ c) → g'.bitAt r c = false)
    ∧ g'.grapheme = g.grapheme

/-- C3 (amended): for a wellformed glyph and `newH ≥ height`, `newW ≥ width`,
provided the glyph's width is positive or the target width is zero (otherwise
the row-repacking branch panics on `chunks_exact(0)`), `pad` succeeds with a
buffer of exactly `newH * ceil(newW/8)` bytes that preserves every original
pixel, zeroes every new pixel, and keeps the grapheme; and whenever the
requested dimensions are too small it fails with `PadTooSmall` carrying both
the glyph's and the requested dimensions. -/
theorem pad_matches_amended_claim (g : Glyph) (newH newW : Nat) (hwf : g.WF) :
    ((g.height ≤ newH ∧ g.width ≤ newW ∧ (g.width = 0 → newW = 0)) → PadSpec g newH newW)
    ∧ ((newH < g.height ∨ newW < g.width) →
        Glyph.pad g newH newW = some (.error (.PadTooSmall g.height g.width newH newW))) := by
  constructor
  · rintro ⟨hH, hW, hz⟩
    obtain ⟨out, hpad, hlen', hget⟩ := pad_ok_master g newH newW hwf.1 hH hW hz
    refine ⟨⟨newH, newW, out, g.grapheme⟩, hpad, rfl, rfl, hlen', ?_, ?_, rfl⟩
    · intro r hr c hc
      have hcnw : c < 8 * ceilDiv8 newW := by
        have h1 : c < newW := by omega
        have := le_eight_ceilDiv8 newW
        omega
      have hj : c / 8 < ceilDiv8 newW := by omega
      have hjr : c / 8 < ceilDiv8 g.width := by
        have := le_eight_ceilDiv8 g.width
        omega
      show byteBit (out.getD (r * ceilDiv8 newW + c / 8) 0) (c % 8) = _
      rw [hget r (c / 8) hj, if_pos ⟨hr, hjr⟩]
      rfl
    · intro r hr c hc hout
      show byteBit (out.getD (r * ceilDiv8 newW + c / 8) 0) (c % 8) = false
      have hcnw : c < 8 * ceilDiv8 newW := by
        have := le_eight_ceilDiv8 newW
        omega
      have hj : c / 8 < ceilDiv8 newW := by omega
      rw [hget r (c / 8) hj]
      by_cases hr : r < g.height
      · have hcw : g.width ≤ c := by
          rcases hout with hout | hout
          · omega
          · exact hout
        by_cases hjr : c / 8 < ceilDiv8 g.width
        · rw [if_pos ⟨hr, hjr⟩]
          have hc8 : c < 8 * ceilDiv8 g.width := by omega
          exact hwf.2 r hr c hc8 hcw
        · rw [if_neg (by tauto)]
          exact byteBit_zero _
      · rw [if_neg (by tauto)]
        exact byteBit_zero _
  · intro hsmall
    simp only [Glyph.pad]
    rw [if_pos (by omega)]

/-- Witness for C3 at a concrete 1×1 glyph padded to 2×9 (the repacking branch). -/
theorem pad_matches_amended_claim_witness : PadSpec ⟨1, 1, [128], [65]⟩ 2 9 :=
  (pad_matches_amended_claim ⟨1, 1, [128], [65]⟩ 2 9 (by decide)).1
    ⟨by decide, by decide, by decide⟩

/-- `From<GlyphError> for GlyphSetError` (src/errors.rs lines 115-123): the
source converts `EmptyString` and panics (`none`) on every other variant. -/
def fromGlyphError : GlyphError → Option GlyphSetError
  | .EmptyString => some .EmptyString
  | _ => none

/-- The `max_height` fold of `Psf2GlyphSet::from_vec_of_glyphs_pad`
(src/psf2_writer.rs lines 90-98), one fold per tracked maximum. -/
def maxHeight (glyphs : List Glyph) : Nat :=
  glyphs.foldl (fun m g => max g.height m) 0

/-- The `max_width` fold of `Psf2GlyphSet::from_vec_of_glyphs_pad`. -/
def maxWidth (glyphs : List Glyph) : Nat :=
  glyphs.foldl (fun m g => max g.width m) 0

theorem foldl_max_ge (f : Glyph → Nat) :
    ∀ (l : List Glyph) (acc : Nat),
      acc ≤ l.foldl (fun m g => max (f g) m) acc
      ∧ ∀ g ∈ l, f g ≤ l.foldl (fun m g => max (f g) m) acc := by
  intro l
  induction l with
  | nil => exact fun acc => ⟨Nat.le_refl _, by simp⟩
  | cons a t ih =>
    intro acc
    constructor
    · calc acc ≤ max (f a) acc := Nat.le_max_right _ _
        _ ≤ t.foldl (fun m g => max (f g) m) (max (f a) acc) := (ih (max (f a) acc)).1
    · intro g hg
      rcases List.mem_cons.mp hg with hg | hg
      · subst hg
        calc f g ≤ max (f g) acc := Nat.le_max_left _ _
          _ ≤ t.foldl (fun m g => max (f g) m) (max (f g) acc) := (ih _).1
      · exact (ih (max (f a) acc)).2 g hg

theorem height_le_maxHeight (glyphs : List Glyph) (g : Glyph) (hg : g ∈ glyphs) :
    g.height ≤ maxHeight glyphs :=
  (foldl_max_ge Glyph.height glyphs 0).2 g hg

theorem width_le_maxWidth (glyphs : List Glyph) (g : Glyph) (hg : g ∈ glyphs) :
    g.width ≤ maxWidth glyphs :=
  (foldl_max_ge Glyph.width glyphs 0).2 g hg

/-- The padding loop of `Psf2GlyphSet::from_vec_of_glyphs_pad`
(src/psf2_writer.rs lines 100-105).  `none` models a panic: either `pad`
itself panicking, or the `?` operator routing a `pad` error through the
panicking `From<GlyphError> for GlyphSetError` conversion. -/
def padAllGlyphs : List Glyph → Nat → Nat → Option (Except GlyphSetError (List Glyph))
  | [], _, _ => some (.ok [])
  | g :: rest, h, w =>
    match Glyph.pad g h w with
    | none => none
    | some (.error e) =>
      match fromGlyphError e with
      | none => none
      | some e' => some (.error e')
    | some (.ok p) =>
      match padAllGlyphs rest h w with
      | none => none
      | some (.error e') => some (.error e')
      | some (.ok ps) => some (.ok (p :: ps))

/-- `Psf2GlyphSet::from_vec_of_glyphs_pad` (src/psf2_writer.rs lines 89-109):
compute the maxima, pad every glyph to them, then run the strict validator. -/
def Psf2GlyphSet.from_vec_of_glyphs_pad (glyphs : List Glyph) :
    Option (Except GlyphSetError Psf2GlyphSet) :=
  match padAllGlyphs glyphs (maxHeight glyphs) (maxWidth glyphs) with
  | none => none
  | some (.error e) => some (.error e)
  | some (.ok padded) => some (Psf2GlyphSet.from_vec_of_glyphs_strict padded)

/-- C7, as amended, stated in the claim's terms over `from_vec_of_glyphs_pad`. -/
def PadModeSpec (glyphs : List Glyph) : Prop :=
  ∃ s : Psf2GlyphSet,
    Psf2GlyphSet.from_vec_of_glyphs_pad glyphs = some (.ok s)
    ∧ s.height = maxHeight glyphs
    ∧ s.width = maxWidth glyphs
    ∧ s.glyphs.length = glyphs.length

theorem padAllGlyphs_ok (H W : Nat) :
    ∀ glyphs : List Glyph,
      (∀ g ∈ glyphs, g.data.length = g.height * ceilDiv8 g.width) →
      (∀ g ∈ glyphs, g.height ≤ H) →
      (∀ g ∈ glyphs, g.width ≤ W) →
      (∀ g ∈ glyphs, g.width = 0 → W = 0) →
      ∃ padded : List Glyph,
        padAllGlyphs glyphs H W = some (.ok padded)
        ∧ padded.length = glyphs.length
        ∧ ∀ p ∈ padded, p.height = H ∧ p.width = W ∧ p.data.length = H * ceilDiv8 W := by
  intro glyphs
  induction glyphs with
  | nil => exact fun _ _ _ _ => ⟨[], rfl, rfl, by simp⟩
  | cons g rest ih =>
    intro hinv hH hW hz
    obtain ⟨out, hpad, hlen, _⟩ :=
      pad_ok_master g H W (hinv g (List.mem_cons_self _ _)) (hH g (List.mem_cons_self _ _))
        (hW g (List.mem_cons_self _ _)) (hz g (List.mem_cons_self _ _))
    obtain ⟨padded, hprec, hplen, hpall⟩ :=
      ih (fun g' hg' => hinv g' (List.mem_cons_of_mem _ hg'))
        (fun g' hg' => hH g' (List.mem_cons_of_mem _ hg'))
        (fun g' hg' => hW g' (List.mem_cons_of_mem _ hg'))
        (fun g' hg' => hz g' (List.mem_cons_of_mem _ hg'))
    refine ⟨⟨H, W, out, g.grapheme⟩ :: padded, ?_, by simp [hplen], ?_⟩
    · simp only [padAllGlyphs, hpad, hprec]
    · intro p hp
      rcases List.mem_cons.mp hp with hp | hp
      · subst hp
        exact ⟨rfl, rfl, hlen⟩
      · exact hpall p hp

/-- C7 (amended): pad-mode assembly computes the per-axis maxima, pads every
glyph to them, and succeeds on any non-empty input of glyphs satisfying the
length invariant in which no zero-width glyph coexists with a positive-width
one, yielding a set whose uniform dimensions are the maxima. -/
theorem pad_assembly_amended (glyphs : List Glyph) (hne : glyphs ≠ [])
    (hinv : ∀ g ∈ glyphs, g.data.length = g.height * ceilDiv8 g.width)
    (hzw : ∀ g ∈ glyphs, g.width = 0 → maxWidth glyphs = 0) :
    PadModeSpec glyphs := by
  obtain ⟨padded, hprec, hplen, hpall⟩ :=
    padAllGlyphs_ok (maxHeight glyphs) (maxWidth glyphs) glyphs hinv
      (fun g hg => height_le_maxHeight glyphs g hg)
      (fun g hg => width_le_maxWidth glyphs g hg) hzw
  rcases hq : padded with _ | ⟨p, ps⟩
  · rw [hq] at hplen
    simp only [List.length_nil] at hplen
    exact absurd (List.eq_nil_of_length_eq_zero hplen.symm) hne
  · rw [hq] at hprec hpall
    obtain ⟨hph, hpw, hpl⟩ := hpall p (List.mem_cons_self _ _)
    have hcheck : checkRest ps p.height p.width p.data.length = none := by
      apply (checkRest_none_iff ps p.height p.width p.data.length).2
      intro g' hg'
      obtain ⟨h1, h2, h3⟩ := hpall g' (List.mem_cons_of_mem _ hg')
      exact ⟨by rw [h1, hph], by rw [h2, hpw], by rw [h3, hpl]⟩
    refine ⟨⟨p :: ps, p.height, p.width, p.data.length⟩, ?_, by rw [hph], by rw [hpw], ?_⟩
    · simp only [Psf2GlyphSet.from_vec_of_glyphs_pad, hprec,
        Psf2GlyphSet.from_vec_of_glyphs_strict, hcheck]
    · show (p :: ps).length = glyphs.length
      rw [← hq, hplen]

/-- Witness for C7 at two concrete glyphs of sizes 1×1 and 2×2. -/
theorem pad_assembly_amended_witness :
    PadModeSpec [⟨1, 1, [128], [65]⟩, ⟨2, 2, [192, 192], [66]⟩] :=
  pad_assembly_amended [⟨1, 1, [128], [65]⟩, ⟨2, 2, [192, 192], [66]⟩]
    (by decide) (by decide) (by decide)

/-- C7 counterexample: a non-empty input containing a wellformed zero-width
glyph next to a positive-width glyph makes pad-mode assembly pad the former to
a positive width, which panics in `chunks_exact(0)` (modelled as `none`)
instead of always succeeding. -/
theorem pad_assembly_panics :
    (∀ g ∈ [(⟨1, 0, [], []⟩ : Glyph), ⟨1, 1, [128], [49]⟩],
        g.data.length = g.height * ceilDiv8 g.width)
    ∧ Psf2GlyphSet.from_vec_of_glyphs_pad [⟨1, 0, [], []⟩, ⟨1, 1, [128], [49]⟩] = none := by
  constructor
  · decide
  · rfl

/-- Little-endian serialization of a `u32` value (`to_le_bytes`). -/
def le32 (n : Nat) : List Nat :=
  [n % 256, n / 256 % 256, n / 65536 % 256, n / 16777216 % 256]

/-- `PSF2_MAGIC_BYTES` from src/psf2_writer.rs. -/
def PSF2_MAGIC_BYTES : List Nat := [0x72, 0xb5, 0x4a, 0x86]

/-- `PSF2_VERSION` from src/psf2_writer.rs. -/
def PSF2_VERSION : List Nat := [0, 0, 0, 0]

/-- `PSF2_HEADER_SIZE` from src/psf2_writer.rs (`32_u32.to_le_bytes()`). -/
def PSF2_HEADER_SIZE : List Nat := le32 32

/-- `Psf2Header::write` (src/psf2_writer.rs lines 27-43): the 32-byte header,
with `flags = (unicode_table_exists as u32).to_le_bytes()`. -/
def Psf2Header.write (h : Psf2Header) : List Nat :=
  PSF2_MAGIC_BYTES ++ PSF2_VERSION ++ PSF2_HEADER_SIZE
    ++ le32 (if h.unicode_table_exists then 1 else 0)
    ++ le32 h.glyph_count ++ le32 h.glyph_size ++ le32 h.glyph_height ++ le32 h.glyph_width

/-- `Psf2GlyphSet::write` (src/psf2_writer.rs lines 151-153): the concatenated
glyph bitmaps in glyph-set order. -/
def Psf2GlyphSet.write (s : Psf2GlyphSet) : List Nat :=
  (s.glyphs.map Glyph.data).flatten

/-- UTF-8 encoding of one Unicode scalar value, as Rust `String::as_bytes`
exposes per char. -/
def utf8EncodeCp (c : Nat) : List Nat :=
  if c < 0x80 then [c]
  else if c < 0x800 then [0xC0 + c / 64, 0x80 + c % 64]
  else if c < 0x10000 then [0xE0 + c / 4096, 0x80 + c / 64 % 64, 0x80 + c % 64]
  else [0xF0 + c / 262144, 0x80 + c / 4096 % 64, 0x80 + c / 64 % 64, 0x80 + c % 64]

/-- UTF-8 bytes of a grapheme (a Rust `String.as_bytes()`). -/
def utf8String (g : List Nat) : List Nat := (g.map utf8EncodeCp).flatten

/-- `UnicodeTable::write` (src/unicode_table.rs lines 57-82): for each
equivalence set, each grapheme in stored order — raw UTF-8 when it has exactly
one codepoint, `0xFE`-prefixed otherwise — then the `0xFF` terminator. -/
def UnicodeTable.write (t : UnicodeTable) : List Nat :=
  (t.data.map (fun s =>
    (s.map (fun g => if g.length = 1 then utf8String g else 0xFE :: utf8String g)).flatten
      ++ [0xFF])).flatten

/-- `Psf2Font::write` (src/psf2_writer.rs lines 163-177): header bytes, then
glyph data, then the Unicode table trailer when one is present. -/
def Psf2Font.write (f : Psf2Font) : List Nat :=
  f.header.write ++ f.glyphs.write ++
    (match f.unicode_table with
     | some uc => uc.write
     | none => [])

/-- The equivalence sets of a font's optional Unicode table. -/
def Psf2Font.tableSets (f : Psf2Font) : List (List (List Nat)) :=
  match f.unicode_table with
  | none => []
  | some t => t.data

/-- The trailer as the claim words it: per set, every single-codepoint grapheme
raw, then every multi-codepoint grapheme with the 0xFE marker, then 0xFF. -/
def trailerSpec (t : UnicodeTable) : List Nat :=
  (t.data.map (fun s =>
    ((s.filter (fun g => g.length = 1)).map utf8String).flatten
      ++ ((s.filter (fun g => 1 < g.length)).map (fun g => 0xFE :: utf8String g)).flatten
      ++ [0xFF])).flatten

/-- C1, stated in the claim's terms: three regions in order, the fixed 32-byte
little-endian header with flags 1 or 0, the concatenated bitmaps, and the
grouped trailer. -/
def SerializeSpec (f : Psf2Font) : Prop :=
  (Psf2Header.write f.header).length = 32
  ∧ Psf2Font.write f =
      (PSF2_MAGIC_BYTES ++ le32 0 ++ le32 32
        ++ le32 (if f.unicode_table.isSome then 1 else 0)
        ++ le32 f.header.glyph_count ++ le32 f.header.glyph_size
        ++ le32 f.header.glyph_height ++ le32 f.header.glyph_width)
      ++ (f.glyphs.glyphs.map Glyph.data).flatten
      ++ (match f.unicode_table with
          | none => []
          | some t => trailerSpec t)

theorem writeSet_sorted (s : List (List Nat))
    (hord : List.Pairwise (fun a b => b.length = 1 → a.length = 1) s)
    (hne : ∀ g ∈ s, g ≠ []) :
    (s.map (fun g => if g.length = 1 then utf8String g else 0xFE :: utf8String g)).flatten
      = ((s.filter (fun g => g.length = 1)).map utf8String).flatten
        ++ ((s.filter (fun g => 1 < g.length)).map (fun g => 0xFE :: utf8String g)).flatten := by
  induction s with
  | nil => rfl
  | cons g rest ih =>
    obtain ⟨hhead, htail⟩ := List.pairwise_cons.mp hord
    have hnetail : ∀ x ∈ rest, x ≠ [] := fun x hx => hne x (List.mem_cons_of_mem _ hx)
    by_cases hg1 : g.length = 1
    · have hgm : ¬(1 < g.length) := by omega
      simp only [List.map_cons, List.flatten_cons, List.filter_cons, hg1, hgm,
        if_true, if_false, ite_true, ite_false, reduceIte, decide_eq_true_eq]
      rw [ih htail hnetail]
      simp [List.append_assoc]
    · have hgm : 1 < g.length := by
        have hpos : 0 < g.length := List.length_pos.mpr (hne g (List.mem_cons_self _ _))
        omega
      have hall : ∀ b ∈ rest, ¬(b.length = 1) := fun b hb h1 => hg1 (hhead b hb h1)
      have hf1 : rest.filter (fun g => g.length = 1) = [] := by
        rw [List.filter_eq_nil_iff]
        intro b hb
        simpa using hall b hb
      have hf1g : (g :: rest).filter (fun g => g.length = 1) = [] := by
        rw [List.filter_cons, if_neg (by simpa using hg1), hf1]
      have hf2 : rest.filter (fun g => 1 < g.length) = rest := by
        rw [List.filter_eq_self]
        intro b hb
        have hbpos : 0 < b.length := List.length_pos.mpr (hnetail b hb)
        have := hall b hb
        simp only [decide_eq_true_eq]
        omega
      have hmap : rest.map (fun g => if g.length = 1 then utf8String g else 0xFE :: utf8String g)
          = rest.map (fun g => 0xFE :: utf8String g) := by
        apply List.map_congr_left
        intro b hb
        rw [if_neg (hall b hb)]
      simp only [List.map_cons, List.flatten_cons, if_neg hg1, hmap, hf1g,
        List.filter_cons]
      rw [if_pos (by simpa using hgm), hf2]
      simp

/-- C1: serialization is exactly header (32 little-endian bytes in the fixed
field order, flags bit 0 = 1 iff a trailer follows and all other bits 0), then
the concatenation of every glyph's bitmap bytes in glyph-set order, then — iff
the flag is set — the per-set trailer emitting single-codepoint graphemes raw,
multi-codepoint graphemes 0xFE-prefixed, and the 0xFF terminator. -/
theorem serializer_matches_claim (f : Psf2Font)
    (hflag : f.header.unicode_table_exists = f.unicode_table.isSome)
    (hord : ∀ s ∈ f.tableSets, List.Pairwise (fun a b => b.length = 1 → a.length = 1) s)
    (hne : ∀ s ∈ f.tableSets, ∀ g ∈ s, g ≠ []) :
    SerializeSpec f := by
  constructor
  · simp [Psf2Header.write, PSF2_MAGIC_BYTES, PSF2_VERSION, PSF2_HEADER_SIZE, le32]
  · have hheader : Psf2Header.write f.header
        = PSF2_MAGIC_BYTES ++ le32 0 ++ le32 32
          ++ le32 (if f.unicode_table.isSome then 1 else 0)
          ++ le32 f.header.glyph_count ++ le32 f.header.glyph_size
          ++ le32 f.header.glyph_height ++ le32 f.header.glyph_width := by
      simp [Psf2Header.write, PSF2_VERSION, PSF2_HEADER_SIZE, le32, hflag]
    have htrailer : (match f.unicode_table with
        | some uc => uc.write
        | none => ([] : List Nat))
        = (match f.unicode_table with
           | none => ([] : List Nat)
           | some t => trailerSpec t) := by
      cases huc : f.unicode_table with
      | none => rfl
      | some t =>
        show UnicodeTable.write t = trailerSpec t
        have hts : f.tableSets = t.data := by
          simp [Psf2Font.tableSets, huc]
        rw [hts] at hord hne
        unfold UnicodeTable.write trailerSpec
        congr 1
        apply List.map_congr_left
        intro s hs
        rw [writeSet_sorted s (hord s hs) (hne s hs)]
    show Psf2Header.write f.header ++ Psf2GlyphSet.write f.glyphs ++ _ = _
    rw [hheader, htrailer]
    rfl

/-- Witness for C1 at a concrete two-glyph font with a two-set Unicode table. -/
theorem serializer_matches_claim_witness :
    SerializeSpec ⟨⟨true, 2, 1, 1, 8⟩,
      ⟨[⟨1, 8, [255], [65]⟩, ⟨1, 8, [129], [66]⟩], 1, 8, 1⟩,
      some ⟨[[[65], [66, 769]], [[67]]]⟩⟩ :=
  serializer_matches_claim
    ⟨⟨true, 2, 1, 1, 8⟩,
      ⟨[⟨1, 8, [255], [65]⟩, ⟨1, 8, [129], [66]⟩], 1, 8, 1⟩,
      some ⟨[[[65], [66, 769]], [[67]]]⟩⟩
    rfl (by decide) (by decide)

/-- `char::from_u32` validity: a Unicode scalar value (not a surrogate, below
0x110000), as checked in `UnicodeTable::from_file`. -/
def validScalar (v : Nat) : Bool :=
  decide (v < 0xD800) || (decide (0xE000 ≤ v) && decide (v < 0x110000))

/-- The per-grapheme codepoint loop of `UnicodeTable::from_file`
(src/unicode_table.rs lines 29-40): push each valid scalar, fail with
`InvalidCodepoint` at the first invalid one. -/
def buildGrapheme : List Nat → Except UnicodeTableError (List Nat)
  | [] => .ok []
  | c :: cs =>
    if validScalar c then (buildGrapheme cs).map (fun g => c :: g)
    else .error (.InvalidCodepoint c)

/-- The per-set grapheme loop of `UnicodeTable::from_file`. -/
def buildRow : List (List Nat) → Except UnicodeTableError (List (List Nat))
  | [] => .ok []
  | g :: gs =>
    match buildGrapheme g with
    | .error e => .error e
    | .ok g' => (buildRow gs).map (fun r => g' :: r)

/-- Stable insertion used to model Rust's stable `sort_by_key`: an element is
placed before the first existing element whose key is not smaller, so elements
with equal keys keep their original relative order. -/
def insertByCount (g : List Nat) : List (List Nat) → List (List Nat)
  | [] => [g]
  | b :: bs => if b.length < g.length then b :: insertByCount g bs else g :: b :: bs

/-- `data_equiv_graphemes_set.sort_by_key(|str| str.chars().count())`
(src/unicode_table.rs line 45), as a stable sort by codepoint count. -/
def sortByCount : List (List Nat) → List (List Nat)
  | [] => []
  | g :: gs => insertByCount g (sortByCount gs)

/-- The row loop of `UnicodeTable::from_file` (src/unicode_table.rs lines
23-49): build each set, sort it, collect in order; first error aborts. -/
def buildTable : List (List (List Nat)) → Except UnicodeTableError (List (List (List Nat)))
  | [] => .ok []
  | row :: rest =>
    match buildRow row with
    | .error e => .error e
    | .ok gs =>
      match buildTable rest with
      | .error e => .error e
      | .ok rest' => .ok (sortByCount gs :: rest')

/-- `UnicodeTable::from_file` (src/unicode_table.rs lines 18-55).  The file
read and the pest grammar live outside the sources; their output — the list of
equivalence-set rows of codepoint values — is the `rows` argument here, and the
function models everything from the codepoint validation on, including the
final truncation to `glyph_count`. -/
def UnicodeTable.from_file (rows : List (List (List Nat))) (glyph_count : Option Nat) :
    Except UnicodeTableError UnicodeTable :=
  match buildTable rows with
  | .error e => .error e
  | .ok d =>
    .ok ⟨match glyph_count with
         | some gc => d.take gc
         | none => d⟩

theorem buildGrapheme_ok : ∀ (g g' : List Nat), buildGrapheme g = .ok g' → g' = g := by
  intro g
  induction g with
  | nil =>
    intro g' h
    cases h
    rfl
  | cons c cs ih =>
    intro g' h
    by_cases hv : validScalar c
    · rw [buildGrapheme, if_pos hv] at h
      cases hcs : buildGrapheme cs with
      | error e => rw [hcs] at h; cases h
      | ok t =>
        rw [hcs] at h
        cases h
        rw [ih t hcs]
    · rw [buildGrapheme, if_neg hv] at h
      cases h

theorem buildRow_ok : ∀ (row row' : List (List Nat)), buildRow row = .ok row' → row' = row := by
  intro row
  induction row with
  | nil =>
    intro row' h
    cases h
    rfl
  | cons g gs ih =>
    intro row' h
    rw [buildRow] at h
    cases hg : buildGrapheme g with
    | error e => rw [hg] at h; cases h
    | ok g' =>
      rw [hg] at h
      cases hr : buildRow gs with
      | error e => rw [hr] at h; cases h
      | ok r =>
        rw [hr] at h
        cases h
        rw [ih r hr, buildGrapheme_ok g g' hg]

theorem buildTable_ok : ∀ (rows d : List (List (List Nat))),
    buildTable rows = .ok d → d = rows.map sortByCount := by
  intro rows
  induction rows with
  | nil =>
    intro d h
    cases h
    rfl
  | cons row rest ih =>
    intro d h
    rw [buildTable] at h
    cases hr : buildRow row with
    | error e => rw [hr] at h; cases h
    | ok gs =>
      rw [hr] at h
      cases ht : buildTable rest with
      | error e => rw [ht] at h; cases h
      | ok rest' =>
        rw [ht] at h
        cases h
        rw [ih rest' ht, buildRow_ok row gs hr]
        rfl

theorem insertByCount_sorted (g : List Nat) :
    ∀ l : List (List Nat),
      List.Pairwise (fun a b => a.length ≤ b.length) l →
      List.Pairwise (fun a b => a.length ≤ b.length) (insertByCount g l)
      ∧ ∀ x ∈ insertByCount g l, x = g ∨ x ∈ l := by
  intro l
  induction l with
  | nil =>
    intro hp
    refine ⟨List.pairwise_singleton _ _, ?_⟩
    intro x hx
    rcases List.mem_cons.mp hx with hx | hx
    · exact Or.inl hx
    · simp at hx
  | cons b bs ih =>
    intro hp
    obtain ⟨hb, hbs⟩ := List.pairwise_cons.mp hp
    by_cases hlt : b.length < g.length
    · rw [insertByCount, if_pos hlt]
      obtain ⟨ihs, ihm⟩ := ih hbs
      constructor
      · rw [List.pairwise_cons]
        refine ⟨?_, ihs⟩
        intro x hx
        rcases ihm x hx with hx | hx
        · subst hx
          omega
        · exact hb x hx
      · intro x hx
        rcases List.mem_cons.mp hx with hx | hx
        · exact Or.inr (by rw [hx]; exact List.mem_cons_self _ _)
        · rcases ihm x hx with hx | hx
          · exact Or.inl hx
          · exact Or.inr (List.mem_cons_of_mem _ hx)
    · rw [insertByCount, if_neg hlt]
      constructor
      · rw [List.pairwise_cons]
        refine ⟨?_, hp⟩
        intro x hx
        rcases List.mem_cons.mp hx with hx | hx
        · subst hx
          omega
        · have := hb x hx
          omega
      · intro x hx
        rcases List.mem_cons.mp hx with hx | hx
        · exact Or.inl hx
        · exact Or.inr hx

theorem sortByCount_sorted (l : List (List Nat)) :
    List.Pairwise (fun a b => a.length ≤ b.length) (sortByCount l)
    ∧ ∀ x ∈ sortByCount l, x ∈ l := by
  induction l with
  | nil => exact ⟨List.Pairwise.nil, by simp [sortByCount]⟩
  | cons g gs ih =>
    obtain ⟨ihs, ihm⟩ := ih
    obtain ⟨hs, hm⟩ := insertByCount_sorted g (sortByCount gs) ihs
    refine ⟨hs, ?_⟩
    intro x hx
    rcases hm x hx with hx | hx
    · exact hx ▸ List.mem_cons_self _ _
    · exact List.mem_cons_of_mem _ (ihm x hx)

theorem filter_insertByCount (g : List Nat) (k : Nat) :
    ∀ l : List (List Nat),
      (insertByCount g l).filter (fun x => x.length = k)
        = if g.length = k then g :: l.filter (fun x => x.length = k)
          else l.filter (fun x => x.length = k) := by
  intro l
  induction l with
  | nil =>
    show List.filter _ [g] = _
    rw [List.filter_cons]
    by_cases hg : g.length = k <;> simp [hg]
  | cons b bs ih =>
    by_cases hlt : b.length < g.length
    · rw [insertByCount, if_pos hlt]
      by_cases hb : b.length = k <;> by_cases hg : g.length = k
      · omega
      · simp [List.filter_cons, hb, hg, ih]
      · simp [List.filter_cons, hb, hg, ih]
      · simp [List.filter_cons, hb, hg, ih]
    · rw [insertByCount, if_neg hlt, List.filter_cons]
      by_cases hg : g.length = k
      · rw [if_pos (by simpa using hg), if_pos hg]
      · rw [if_neg (by simpa using hg), if_neg hg]

theorem filter_sortByCount (k : Nat) :
    ∀ l : List (List Nat),
      (sortByCount l).filter (fun x => x.length = k) = l.filter (fun x => x.length = k) := by
  intro l
  induction l with
  | nil => rfl
  | cons g gs ih =>
    show (insertByCount g (sortByCount gs)).filter _ = _
    rw [filter_insertByCount, List.filter_cons]
    by_cases hg : g.length = k
    · rw [if_pos hg, if_pos (by simpa using hg), ih]
    · rw [if_neg hg, if_neg (by simpa using hg), ih]

theorem pairwise_get_le :
    ∀ (l : List (List Nat)),
      List.Pairwise (fun a b => a.length ≤ b.length) l →
      ∀ i j (hi : i < l.length) (hj : j < l.length), i < j →
        (l.get ⟨i, hi⟩).length ≤ (l.get ⟨j, hj⟩).length := by
  intro l
  induction l with
  | nil => intro _ i j hi; simp at hi
  | cons a t ih =>
    intro hp i j hi hj hij
    obtain ⟨ha, ht⟩ := List.pairwise_cons.mp hp
    cases i with
    | zero =>
      cases j with
      | zero => omega
      | succ n =>
        have hn : n < t.length := by simpa using hj
        exact ha (t.get ⟨n, hn⟩) (t.get_mem n hn)
    | succ m =>
      cases j with
      | zero => omega
      | succ n =>
        exact ih ht m n (by simpa using hi) (by simpa using hj) (by omega)

/-- C8, stated in the claim's terms: every equivalence set of a successfully
parsed table is sorted ascending by codepoint count, singles precede multis,
the reference grapheme is single-codepoint when one exists, and each set is
the stable sort of an input row (equal-count elements keep input order). -/
def TableSortedSpec (rows : List (List (List Nat))) (t : UnicodeTable) : Prop :=
  ∀ s ∈ t.data,
    List.Pairwise (fun a b => a.length ≤ b.length) s
    ∧ (∀ i j (hi : i < s.length) (hj : j < s.length),
        (s.get ⟨i, hi⟩).length = 1 → 1 < (s.get ⟨j, hj⟩).length → i < j)
    ∧ ((∃ g ∈ s, g.length = 1) → ∃ hd, s.head? = some hd ∧ hd.length = 1)
    ∧ ∃ row ∈ rows, s = sortByCount row
        ∧ ∀ k, s.filter (fun g => g.length = k) = row.filter (fun g => g.length = k)

/-- C8: within each parsed EquivalenceSet the graphemes are stably sorted
ascending by codepoint count, so single-codepoint graphemes precede
multi-codepoint ones and element 0 is single-codepoint whenever the set has
one.  The pest grammar is external to the sources; its guarantee that parsed
graphemes are non-empty is the `hne` hypothesis, and the parsed rows are the
`rows` argument. -/
theorem unicode_table_sorted (rows : List (List (List Nat))) (gc : Option Nat)
    (t : UnicodeTable)
    (hne : ∀ row ∈ rows, ∀ g ∈ row, g ≠ [])
    (hok : UnicodeTable.from_file rows gc = .ok t) :
    TableSortedSpec rows t := by
  have hdata : ∀ s ∈ t.data, ∃ row ∈ rows, s = sortByCount row := by
    unfold UnicodeTable.from_file at hok
    cases hbt : buildTable rows with
    | error e => rw [hbt] at hok; cases hok
    | ok d =>
      rw [hbt] at hok
      cases hok
      have hd := buildTable_ok rows d hbt
      subst hd
      intro s hs
      have hs' : s ∈ rows.map sortByCount := by
        cases gc with
        | none => exact hs
        | some n => exact List.take_subset n _ hs
      obtain ⟨row, hrow, hseq⟩ := List.mem_map.mp hs'
      exact ⟨row, hrow, hseq.symm⟩
  intro s hs
  obtain ⟨row, hrow, hseq⟩ := hdata s hs
  subst hseq
  have hsorted := (sortByCount_sorted row).1
  have hmem : ∀ x ∈ sortByCount row, x ∈ row := (sortByCount_sorted row).2
  refine ⟨hsorted, ?_, ?_, ⟨row, hrow, rfl, fun k => filter_sortByCount k row⟩⟩
  · intro i j hi hj h1 hj2
    by_contra hij
    push_neg at hij
    rcases Nat.lt_or_ge j i with hlt | hge
    · have := pairwise_get_le _ hsorted j i hj hi hlt
      omega
    · have hje : j = i := by omega
      subst hje
      omega
  · intro ⟨g, hg, hg1⟩
    cases hsq : sortByCount row with
    | nil =>
      rw [hsq] at hg
      simp at hg
    | cons hd tl =>
      refine ⟨hd, by simp [hsq], ?_⟩
      have hdmem : hd ∈ row := hmem hd (by rw [hsq]; exact List.mem_cons_self _ _)
      have hdne : hd ≠ [] := hne row hrow hd hdmem
      have hdpos : 0 < hd.length := List.length_pos.mpr hdne
      rw [hsq] at hg hsorted
      rcases List.mem_cons.mp hg with hgh | hgt
      · rw [hgh] at hg1
        omega
      · have := (List.pairwise_cons.mp hsorted).1 g hgt
        omega

/-- Witness for C8 at a concrete row listing a two-codepoint grapheme before a
single-codepoint one; parsing sorts the single one to the front. -/
theorem unicode_table_sorted_witness :
    TableSortedSpec [[[66, 769], [65]]] ⟨[[[65], [66, 769]]]⟩ :=
  unicode_table_sorted [[[66, 769], [65]]] none ⟨[[[65], [66, 769]]]⟩ (by decide) rfl

/-- The MSB-first bits of one byte, as `view_bits::<Msb0>` exposes them. -/
def byteToBits (b : Nat) : List Bool :=
  [b.testBit 7, b.testBit 6, b.testBit 5, b.testBit 4,
   b.testBit 3, b.testBit 2, b.testBit 1, b.testBit 0]

/-- The MSB-first bit stream of a byte buffer (`view_bits::<Msb0>`). -/
def bytesToBits (l : List Nat) : List Bool := (l.map byteToBits).flatten

/-- Reassemble one byte from up to eight MSB-first bits. -/
def bitsToByte (bits : List Bool) : Nat :=
  bits.foldl (fun acc b => 2 * acc + (if b then 1 else 0)) 0

/-- Fuel-driven worker for `chunksList`. -/
def chunksAux {α : Type} : Nat → Nat → List α → List (List α)
  | 0, _, _ => []
  | fuel + 1, k, l =>
    if 0 < k ∧ 0 < l.length then l.take k :: chunksAux fuel k (l.drop k) else []

/-- Rust `slice::chunks(k)`: consecutive `k`-element chunks, keeping a shorter
final chunk.  The Rust method panics on `k = 0`; all call sites here have
`k > 0`. -/
def chunksList {α : Type} (k : Nat) (l : List α) : List (List α) :=
  chunksAux l.length k l

/-- `BitVec::into_vec`: pack a bit stream into bytes, the final partial byte
zero-filled in its low bits. -/
def bitsToBytes (bits : List Bool) : List Nat :=
  (chunksList 8 bits).map (fun c => bitsToByte (c ++ List.replicate (8 - c.length) false))

/-- The fields of `ab_glyph::v2::GlyphImage` used by `Glyph::from_glyph_image`. -/
structure GlyphImage where
  width : Nat
  height : Nat
  data : List Nat
  format : GlyphImageFormat
deriving DecidableEq, Repr

/-- `Glyph::from_glyph_image` (src/glyph.rs lines 71-106): `BitmapMono` data is
taken verbatim; `BitmapMonoPacked` data is re-chunked by viewing the **entire**
byte buffer as bits, splitting it into width-sized rows with `chunks_exact`
(dropping a final partial row), and right-padding each row with zero bits;
other formats are unsupported.  `none` models the `chunks_exact_mut(0)` panic
for zero width. -/
def Glyph.from_glyph_image (img : GlyphImage) (grapheme : Nat) :
    Option (Except GlyphError Glyph) :=
  match img.format with
  | .BitmapMono => some (.ok ⟨img.height, img.width, img.data, [grapheme]⟩)
  | .BitmapMonoPacked =>
    if img.width = 0 then none
    else
      some (.ok ⟨img.height, img.width,
        bitsToBytes (((chunksExact img.width (bytesToBits img.data)).map
          (fun r => r ++ List.replicate (ceilDiv8 img.width * 8 - img.width) false)).flatten),
        [grapheme]⟩)
  | fmt => some (.error (.GlyphImgFmtUnsupported fmt))

/-- C4: the code violates the `data.length == height * ceil(width/8)` invariant.
A 1×2 `BitmapMonoPacked` embedded bitmap whose data has exactly the implied
size `ceil(width*height/8) = 1` byte is converted into a glyph carrying 4 data
bytes (the conversion re-chunks all 8 stored bits into four 2-bit rows), where
the invariant requires `1 * ceil(2/8) = 1` byte. -/
theorem packed_conversion_breaks_invariant :
    Glyph.from_glyph_image ⟨2, 1, [255], .BitmapMonoPacked⟩ 65
      = some (.ok ⟨1, 2, [192, 192, 192, 192], [65]⟩)
    ∧ ([255] : List Nat).length = ceilDiv8 (2 * 1)
    ∧ ((4 : Nat) = 1 * ceilDiv8 2 → False) := by
  refine ⟨by decide, by decide, by decide⟩

/-- `TtfParser::render_string` (src/ttf_parser.rs lines 31-41), abstracted over
the per-character rendering (`render_char`, font behaviour) and taking the
grapheme as its codepoints.  The fold combines glyphs with
`acc.add(g).unwrap()`; an `add` failure is a panic, modelled as `none`. -/
def render_string (render_char : Nat → Glyph) (grapheme : List Nat) :
    Option (Except GlyphError Glyph) :=
  match grapheme.map render_char with
  | [] => some (.error .EmptyString)
  | fg :: rest =>
    match rest.foldl (fun acc g =>
        match acc with
        | none => none
        | some a =>
          match Glyph.add a g with
          | .ok g' => some g'
          | .error _ => none) (some fg) with
    | none => none
    | some g => some (.ok g)

/-- C9: two error paths abort the process instead of returning a typed error.
The `From<GlyphError> for GlyphSetError` conversion panics on every variant
except `EmptyString` (here: `WrongDimensions`), and `render_string` folds
per-codepoint glyphs with `add(..).unwrap()`, which panics when the two
characters render at different dimensions. -/
theorem error_paths_panic :
    fromGlyphError (.WrongDimensions 1 1 2 2) = none
    ∧ render_string (fun c => if c = 0 then ⟨1, 1, [0], [48]⟩ else ⟨2, 2, [0, 0], [49]⟩)
        [0, 1] = none := by
  refine ⟨rfl, rfl⟩

/-- The packed-to-byte-aligned direction of `GlyphImageOwned::convert_format`
(src/glyph_image_owned.rs lines 84-99): when the width is not a byte multiple,
view the bytes as bits, split into width-sized chunks (`chunks`, keeping a
short final chunk), intersperse the row padding, append one more padding, and
repack into bytes.  The `f32` ceiling is exact for `u16` widths. -/
def packedToAligned (w : Nat) (data : List Nat) : List Nat :=
  if w % 8 = 0 then data
  else
    bitsToBytes
      ((List.intersperse (List.replicate (ceilDiv8 w * 8 - w) false)
          (chunksList w (bytesToBits data))).flatten
        ++ List.replicate (ceilDiv8 w * 8 - w) false)

/-- The byte-aligned-to-packed direction of `GlyphImageOwned::convert_format`
(src/glyph_image_owned.rs lines 101-115): chunk the bit view by the padded
width and keep the first `w` bits of every chunk.  The slice `&x[0..width]`
panics when the final chunk is shorter than `w`; `none` models that panic. -/
def alignedToPacked (w : Nat) (data : List Nat) : Option (List Nat) :=
  if w % 8 = 0 then some data
  else
    if (chunksList (ceilDiv8 w * 8) (bytesToBits data)).all (fun c => w ≤ c.length) then
      some (bitsToBytes
        (((chunksList (ceilDiv8 w * 8) (bytesToBits data)).map (fun c => c.take w)).flatten))
    else none

/-- C5 counterexample: for width 13, one row, converting the packed 2-byte
bitmap to byte-aligned and back panics (the final chunk is 8 bits, shorter
than 13); for width 7, one row, the round trip returns the original byte plus
a trailing zero byte, not the original bit pattern. -/
theorem convert_roundtrip_not_exact :
    alignedToPacked 13 (packedToAligned 13 [0, 0]) = none
    ∧ packedToAligned 7 [170] = [170, 0]
    ∧ alignedToPacked 7 (packedToAligned 7 [170]) = some [170, 0]
    ∧ ([170, 0] : List Nat) ≠ [170] := by
  refine ⟨by decide, by decide, by decide, by decide⟩

theorem bytesToBits_length (l : List Nat) : (bytesToBits l).length = 8 * l.length := by
  induction l with
  | nil => rfl
  | cons b t ih =>
    show (byteToBits b ++ bytesToBits t).length = _
    simp only [List.length_append, ih, List.length_cons]
    show 8 + 8 * t.length = _
    omega

set_option maxRecDepth 4096 in
theorem bitsToByte_byteToBits : ∀ b < 256, bitsToByte (byteToBits b) = b := by decide

theorem byteToBits_bitsToByte8 :
    ∀ b0 b1 b2 b3 b4 b5 b6 b7 : Bool,
      byteToBits (bitsToByte [b0, b1, b2, b3, b4, b5, b6, b7])
        = [b0, b1, b2, b3, b4, b5, b6, b7] := by decide

theorem byteToBits_bitsToByte (c : List Bool) (hc : c.length = 8) :
    byteToBits (bitsToByte c) = c := by
  match c, hc with
  | [b0, b1, b2, b3, b4, b5, b6, b7], _ =>
    exact byteToBits_bitsToByte8 b0 b1 b2 b3 b4 b5 b6 b7

theorem chunksAux_nil {α : Type} (fuel k : Nat) : chunksAux fuel k ([] : List α) = [] := by
  cases fuel with
  | zero => rfl
  | succ n =>
    rw [chunksAux]
    exact if_neg (by intro hc; simp only [List.length_nil, Nat.lt_irrefl] at hc; exact hc.2)

theorem chunksAux_congr {α : Type} (k : Nat) :
    ∀ (fuel fuel' : Nat) (l : List α), l.length ≤ fuel → l.length ≤ fuel' →
      chunksAux fuel k l = chunksAux fuel' k l := by
  intro fuel
  induction fuel with
  | zero =>
    intro fuel' l h h'
    have hl : l = [] := List.eq_nil_of_length_eq_zero (Nat.le_zero.1 h)
    subst hl
    rw [chunksAux_nil, chunksAux_nil]
  | succ n ih =>
    intro fuel' l h h'
    cases fuel' with
    | zero =>
      have hl : l = [] := List.eq_nil_of_length_eq_zero (Nat.le_zero.1 h')
      subst hl
      rw [chunksAux_nil, chunksAux_nil]
    | succ m =>
      rw [chunksAux, chunksAux]
      by_cases hc : 0 < k ∧ 0 < l.length
      · rw [if_pos hc, if_pos hc]
        have hd : (l.drop k).length ≤ n := by
          simp only [List.length_drop]
          omega
        have hd' : (l.drop k).length ≤ m := by
          simp only [List.length_drop]
          omega
        rw [ih m (l.drop k) hd hd']
      · rw [if_neg hc, if_neg hc]

theorem chunksList_cons {α : Type} (k : Nat) (l : List α) (hk : 0 < k) (hl : 0 < l.length) :
    chunksList k l = l.take k :: chunksList k (l.drop k) := by
  rcases l with _ | ⟨a, t⟩
  · simp at hl
  · show chunksAux (a :: t).length k (a :: t) = _
    have hfuel : (a :: t).length = t.length + 1 := rfl
    rw [hfuel, chunksAux, if_pos ⟨hk, hl⟩]
    have h2 : chunksAux t.length k ((a :: t).drop k)
        = chunksAux ((a :: t).drop k).length k ((a :: t).drop k) :=
      chunksAux_congr k t.length ((a :: t).drop k).length ((a :: t).drop k)
        (by simp only [List.length_drop, List.length_cons]; omega) (Nat.le_refl _)
    rw [h2]
    rfl

theorem chunksList_split {α : Type} (k : Nat) (c l : List α) (hk : 0 < k) (hc : c.length = k) :
    chunksList k (c ++ l) = c :: chunksList k l := by
  have hpos : 0 < (c ++ l).length := by
    simp only [List.length_append]
    omega
  rw [chunksList_cons k (c ++ l) hk hpos]
  congr 1
  · rw [← hc]
    exact List.take_left c l
  · rw [show k = c.length from hc.symm]
    rw [List.drop_left c l]

theorem chunksList_of_flatten {α : Type} (k : Nat) (hk : 0 < k) :
    ∀ rows : List (List α), (∀ r ∈ rows, r.length = k) →
      chunksList k rows.flatten = rows := by
  intro rows
  induction rows with
  | nil => intro _; rfl
  | cons r rest ih =>
    intro hall
    show chunksList k (r ++ rest.flatten) = _
    rw [chunksList_split k r rest.flatten hk (hall r (List.mem_cons_self _ _))]
    rw [ih (fun x hx => hall x (List.mem_cons_of_mem _ hx))]

theorem chunksList_full {α : Type} (k : Nat) (hk : 0 < k) :
    ∀ (h : Nat) (l : List α), l.length = h * k →
      (∀ c ∈ chunksList k l, c.length = k)
      ∧ (chunksList k l).length = h
      ∧ (chunksList k l).flatten = l := by
  intro h
  induction h with
  | zero =>
    intro l hl
    have : l = [] := List.eq_nil_of_length_eq_zero (by omega)
    subst this
    exact ⟨by intro c hc; exact absurd hc (by rw [show chunksList k ([] : List α) = [] from rfl]; simp),
      rfl, rfl⟩
  | succ m ih =>
    intro l hl
    have hkl : k ≤ l.length := by
      rw [hl, Nat.succ_mul]
      omega
    have hpos : 0 < l.length := by omega
    rw [chunksList_cons k l hk hpos]
    have hdl : (l.drop k).length = m * k := by
      simp only [List.length_drop, hl, Nat.succ_mul]
      omega
    obtain ⟨ihc, ihn, ihf⟩ := ih (l.drop k) hdl
    refine ⟨?_, ?_, ?_⟩
    · intro c hc
      rcases List.mem_cons.mp hc with hc | hc
      · rw [hc, List.length_take]
        omega
      · exact ihc c hc
    · simp only [List.length_cons, ihn]
    · simp only [List.flatten_cons, ihf, List.take_append_drop]

theorem flatten_length_uniform {α : Type} (k : Nat) :
    ∀ rows : List (List α), (∀ r ∈ rows, r.length = k) →
      rows.flatten.length = rows.length * k := by
  intro rows
  induction rows with
  | nil => intro _; simp
  | cons r rest ih =>
    intro hall
    simp only [List.flatten_cons, List.length_append, List.length_cons,
      hall r (List.mem_cons_self _ _), ih (fun x hx => hall x (List.mem_cons_of_mem _ hx))]
    ring

theorem bitsToBytes_bytesToBits (l : List Nat) (hb : ∀ b ∈ l, b < 256) :
    bitsToBytes (bytesToBits l) = l := by
  induction l with
  | nil => rfl
  | cons b t ih =>
    show bitsToBytes (byteToBits b ++ bytesToBits t) = _
    unfold bitsToBytes
    rw [chunksList_split 8 (byteToBits b) (bytesToBits t) (by omega) rfl]
    rw [List.map_cons]
    have hbyte : bitsToByte (byteToBits b ++ List.replicate (8 - (byteToBits b).length) false)
        = b := by
      show bitsToByte (byteToBits b ++ List.replicate 0 false) = b
      rw [List.replicate_zero, List.append_nil]
      exact bitsToByte_byteToBits b (hb b (List.mem_cons_self _ _))
    rw [hbyte]
    have := ih (fun x hx => hb x (List.mem_cons_of_mem _ hx))
    unfold bitsToBytes at this
    rw [this]

theorem bytesToBits_bitsToBytes :
    ∀ (n : Nat) (bits : List Bool), bits.length = 8 * n →
      bytesToBits (bitsToBytes bits) = bits := by
  intro n
  induction n with
  | zero =>
    intro bits hl
    have : bits = [] := List.eq_nil_of_length_eq_zero (by omega)
    subst this
    rfl
  | succ m ih =>
    intro bits hl
    have hsplit : bits = bits.take 8 ++ bits.drop 8 := (List.take_append_drop 8 bits).symm
    have htl : (bits.take 8).length = 8 := by
      rw [List.length_take]
      omega
    have hdl : (bits.drop 8).length = 8 * m := by
      simp only [List.length_drop, hl]
      omega
    rw [hsplit]
    unfold bitsToBytes
    rw [chunksList_split 8 (bits.take 8) (bits.drop 8) (by omega) htl]
    rw [List.map_cons]
    show bytesToBits (_ :: _) = _
    have hbyte : byteToBits (bitsToByte (bits.take 8 ++ List.replicate (8 - (bits.take 8).length) false))
        = bits.take 8 := by
      rw [htl]
      show byteToBits (bitsToByte (bits.take 8 ++ List.replicate 0 false)) = _
      rw [List.replicate_zero, List.append_nil]
      exact byteToBits_bitsToByte (bits.take 8) htl
    show byteToBits _ ++ bytesToBits _ = _
    rw [hbyte]
    have := ih (bits.drop 8) hdl
    unfold bitsToBytes at this
    rw [this]

theorem flatten_intersperse_pad {α : Type} (pad : List α) :
    ∀ rows : List (List α), rows ≠ [] →
      (List.intersperse pad rows).flatten ++ pad = (rows.map (fun r => r ++ pad)).flatten := by
  intro rows
  induction rows with
  | nil => intro hne; exact absurd rfl hne
  | cons r rest ih =>
    intro _
    cases rest with
    | nil => simp [List.intersperse]
    | cons r2 rest2 =>
      have hstep : List.intersperse pad (r :: r2 :: rest2)
          = r :: pad :: List.intersperse pad (r2 :: rest2) := rfl
      rw [hstep]
      simp only [List.flatten_cons, List.map_cons]
      have := ih (by simp)
      simp only [List.map_cons] at this
      rw [List.append_assoc, List.append_assoc, this]
      simp [List.append_assoc]

theorem map_congr_id {α : Type} (l : List α) (f : α → α) (h : ∀ x ∈ l, f x = x) :
    l.map f = l := by
  induction l with
  | nil => rfl
  | cons a t ih =>
    simp only [List.map_cons, h a (List.mem_cons_self _ _),
      ih (fun x hx => h x (List.mem_cons_of_mem _ hx))]

/-- C5 (amended): with genuine byte values, the packed/byte-aligned round trip
is the identity when the width is a byte multiple (both conversions do
nothing); for other widths it reproduces the bytes exactly when `w * h` is a
positive multiple of 8 — in the aligned-first order additionally requiring the
per-row padding bits to be zero.  Outside those conditions the round trip
appends spurious zero bytes or panics (see the counterexample). -/
theorem convert_roundtrip_amended (w h : Nat) (data : List Nat)
    (hb : ∀ b ∈ data, b < 256) :
    (w % 8 = 0 → packedToAligned w data = data ∧ alignedToPacked w data = some data)
    ∧ (w % 8 ≠ 0 → 0 < h → 8 * data.length = w * h →
        alignedToPacked w (packedToAligned w data) = some data)
    ∧ (w % 8 ≠ 0 → 0 < h → data.length = h * ceilDiv8 w → 8 ∣ w * h →
        (∀ r ∈ chunksList (ceilDiv8 w * 8) (bytesToBits data), ∀ x ∈ r.drop w, x = false) →
        ∃ p, alignedToPacked w data = some p ∧ packedToAligned w p = data) := by
  refine ⟨?_, ?_, ?_⟩
  · intro h8
    constructor
    · simp [packedToAligned, h8]
    · simp [alignedToPacked, h8]
  · intro h8 hh hlen
    have hw : 0 < w := by omega
    have hwpw : w ≤ ceilDiv8 w * 8 := by unfold ceilDiv8; omega
    have hbitslen : (bytesToBits data).length = h * w := by
      rw [bytesToBits_length, hlen]
      exact Nat.mul_comm w h
    obtain ⟨hrl, hrc, hrf⟩ := chunksList_full w hw h (bytesToBits data) hbitslen
    have hrowsne : chunksList w (bytesToBits data) ≠ [] := by
      intro hnil
      rw [hnil] at hrc
      simp only [List.length_nil] at hrc
      omega
    have hstep1 : packedToAligned w data
        = bitsToBytes (((chunksList w (bytesToBits data)).map
            (fun r => r ++ List.replicate (ceilDiv8 w * 8 - w) false)).flatten) := by
      unfold packedToAligned
      rw [if_neg h8, flatten_intersperse_pad _ _ hrowsne]
    have hmaplen : ∀ r ∈ (chunksList w (bytesToBits data)).map
        (fun r => r ++ List.replicate (ceilDiv8 w * 8 - w) false),
        r.length = ceilDiv8 w * 8 := by
      intro r hr
      obtain ⟨r0, hr0, hreq⟩ := List.mem_map.mp hr
      rw [← hreq]
      simp only [List.length_append, List.length_replicate, hrl r0 hr0]
      omega
    have halignedlen : ((chunksList w (bytesToBits data)).map
        (fun r => r ++ List.replicate (ceilDiv8 w * 8 - w) false)).flatten.length
          = h * (ceilDiv8 w * 8) := by
      rw [flatten_length_uniform (ceilDiv8 w * 8) _ hmaplen, List.length_map, hrc]
    rw [hstep1]
    unfold alignedToPacked
    rw [if_neg h8]
    have hbits2 : bytesToBits (bitsToBytes (((chunksList w (bytesToBits data)).map
        (fun r => r ++ List.replicate (ceilDiv8 w * 8 - w) false)).flatten))
          = ((chunksList w (bytesToBits data)).map
            (fun r => r ++ List.replicate (ceilDiv8 w * 8 - w) false)).flatten :=
      bytesToBits_bitsToBytes (h * ceilDiv8 w) _ (by rw [halignedlen]; ring)
    rw [hbits2]
    have hpwpos : 0 < ceilDiv8 w * 8 := by
      unfold ceilDiv8
      omega
    have hchunks2 : chunksList (ceilDiv8 w * 8) (((chunksList w (bytesToBits data)).map
        (fun r => r ++ List.replicate (ceilDiv8 w * 8 - w) false)).flatten)
          = (chunksList w (bytesToBits data)).map
            (fun r => r ++ List.replicate (ceilDiv8 w * 8 - w) false) :=
      chunksList_of_flatten (ceilDiv8 w * 8) hpwpos _ hmaplen
    rw [hchunks2]
    have hall : ((chunksList w (bytesToBits data)).map
        (fun r => r ++ List.replicate (ceilDiv8 w * 8 - w) false)).all
          (fun c => w ≤ c.length) = true := by
      rw [List.all_eq_true]
      intro c hc
      simp only [decide_eq_true_eq]
      rw [hmaplen c hc]
      exact hwpw
    rw [if_pos hall]
    congr 1
    rw [List.map_map]
    rw [map_congr_id _ _ (by
      intro r hr
      show List.take w (r ++ _) = r
      rw [show w = r.length from (hrl r hr).symm]
      exact List.take_left _ _)]
    rw [hrf]
    exact bitsToBytes_bytesToBits data hb
  · intro h8 hh hlen hdvd hpadzero
    have hw : 0 < w := by omega
    have hpwpos : 0 < ceilDiv8 w * 8 := by
      unfold ceilDiv8
      omega
    have hwpw : w ≤ ceilDiv8 w * 8 := by unfold ceilDiv8; omega
    have hbl : (bytesToBits data).length = h * (ceilDiv8 w * 8) := by
      rw [bytesToBits_length, hlen]
      ring
    obtain ⟨hrl, hrc, hrf⟩ := chunksList_full (ceilDiv8 w * 8) hpwpos h (bytesToBits data) hbl
    unfold alignedToPacked
    rw [if_neg h8]
    have hall : ((chunksList (ceilDiv8 w * 8) (bytesToBits data)).all
        (fun c => w ≤ c.length)) = true := by
      rw [List.all_eq_true]
      intro c hc
      simp only [decide_eq_true_eq]
      rw [hrl c hc]
      exact hwpw
    rw [if_pos hall]
    refine ⟨_, rfl, ?_⟩
    have htakelen : ∀ r ∈ (chunksList (ceilDiv8 w * 8) (bytesToBits data)).map
        (fun c => c.take w), r.length = w := by
      intro r hr
      obtain ⟨r0, hr0, hreq⟩ := List.mem_map.mp hr
      rw [← hreq, List.length_take, hrl r0 hr0]
      omega
    have hpblen : ((chunksList (ceilDiv8 w * 8) (bytesToBits data)).map
        (fun c => c.take w)).flatten.length = h * w := by
      rw [flatten_length_uniform w _ htakelen, List.length_map, hrc]
    obtain ⟨q, hq⟩ := hdvd
    have hbits3 : bytesToBits (bitsToBytes (((chunksList (ceilDiv8 w * 8) (bytesToBits data)).map
        (fun c => c.take w)).flatten))
          = ((chunksList (ceilDiv8 w * 8) (bytesToBits data)).map (fun c => c.take w)).flatten :=
      bytesToBits_bitsToBytes q _ (by
        rw [hpblen]
        calc h * w = w * h := Nat.mul_comm h w
          _ = 8 * q := hq)
    unfold packedToAligned
    rw [if_neg h8, hbits3]
    have hchunks3 : chunksList w (((chunksList (ceilDiv8 w * 8) (bytesToBits data)).map
        (fun c => c.take w)).flatten)
          = (chunksList (ceilDiv8 w * 8) (bytesToBits data)).map (fun c => c.take w) :=
      chunksList_of_flatten w hw _ htakelen
    rw [hchunks3]
    have hne2 : (chunksList (ceilDiv8 w * 8) (bytesToBits data)).map
        (fun c => c.take w) ≠ [] := by
      intro hnil
      have hlen0 := congrArg List.length hnil
      rw [List.length_map, hrc] at hlen0
      simp only [List.length_nil] at hlen0
      omega
    rw [flatten_intersperse_pad _ _ hne2]
    rw [List.map_map]
    rw [map_congr_id _ _ (by
      intro r hr
      show List.take w r ++ List.replicate (ceilDiv8 w * 8 - w) false = r
      have hdeq : r.drop w = List.replicate (ceilDiv8 w * 8 - w) false := by
        rw [List.eq_replicate_iff]
        refine ⟨?_, hpadzero r hr⟩
        rw [List.length_drop, hrl r hr]
      calc List.take w r ++ List.replicate (ceilDiv8 w * 8 - w) false
          = List.take w r ++ List.drop w r := by rw [hdeq]
        _ = r := List.take_append_drop w r)]
    rw [hrf]
    exact bitsToBytes_bytesToBits data hb

/-- Witness for C5 at width 4 (not a byte multiple), two rows, one data byte. -/
theorem convert_roundtrip_amended_witness :
    alignedToPacked 4 (packedToAligned 4 [171]) = some [171] :=
  (convert_roundtrip_amended 4 2 [171] (by decide)).2.1 (by decide) (by decide) (by decide)
